import Mathlib

/-!
Shallow embedding of the training-criterion layer of
MachineLearning/CNTKComputationNetworkLib/TrainingCriterionNodes.h.

Matrices of the numeric tensor engine are modelled as total functions
from (row, column) to the element value; rational entries are used
wherever the node logic itself only adds, scales and compares entries
(so the embedding stays executable), and real entries are used where
the node computes logarithms and exponentials (the CRF and the
class-based soft-max forward pass).

The Sequence Mask (external, consumed) is modelled from the spec as a
per-column validity flag: the masking operation
`MaskToZeroWhenLabelAndFeatureMissing` zeroes every invalid column.
-/

namespace CNTK

/-- A dense 2-D tensor with rational entries, as a total function
(row, column) ↦ value.  Row/column counts are carried separately by
the operations that need them. -/
abbrev Mat := ℕ → ℕ → ℚ

/-- A dense 2-D tensor with real entries (used where the code takes
logs and exps). -/
abbrev MatR := ℕ → ℕ → ℝ

/-- The all-zero tensor. -/
def zeroMat : Mat := fun _ _ => 0

/-- `(size_t)x` applied to a matrix entry: truncation of a rational
label entry to a natural number, as the C++ cast does for the
non-negative integer values stored in label matrices. -/
def q2n (x : ℚ) : ℕ := x.floor.toNat

/-- Modelled from the spec: the Sequence Mask zeroes, column by
column, every entry of an invalid column
(`MaskToZeroWhenLabelAndFeatureMissing` on a whole tensor). -/
def maskZero (valid : ℕ → Bool) (m : Mat) : Mat :=
  fun r c => if valid c then m r c else 0

/-- Errors raised by the nodes: `InvalidArgument`, `LogicError` and
`RuntimeError` all abort the call; only the message differs. -/
inductive NodeError where
  | invalidArgument (msg : String)
  | logicError (msg : String)
  | runtimeError (msg : String)
deriving DecidableEq, Repr

/-! ## SquareErrorNode

`ComputeInputPartialLeft` : `inputGradientValues.AddWithScaleOf(g00, leftMinusRight)`.
`ComputeInputPartialRight`: `inputGradientValues.AddWithScaleOf(-g00, leftMinusRight)`.
`gradientValues.Get00Element()` is the scalar upstream gradient. -/

/-- `SquareErrorNode::ComputeInputPartialLeft`. -/
def sqErrComputeInputPartialLeft (gradient00 : ℚ) (leftMinusRight : Mat)
    (inputGradientValues : Mat) : Mat :=
  fun r c => inputGradientValues r c + gradient00 * leftMinusRight r c

/-- `SquareErrorNode::ComputeInputPartialRight`. -/
def sqErrComputeInputPartialRight (gradient00 : ℚ) (leftMinusRight : Mat)
    (inputGradientValues : Mat) : Mat :=
  fun r c => inputGradientValues r c + (-gradient00) * leftMinusRight r c

/-- `SquareErrorNode::ComputeInputPartial` : dispatch on the input index;
index greater than 1 raises `InvalidArgument`. -/
def sqErrComputeInputPartial (inputIndex : ℕ) (gradient00 : ℚ)
    (leftMinusRight : Mat) (grad0 grad1 : Mat) :
    Except NodeError (Mat × Mat) :=
  if inputIndex > 1 then
    .error (.invalidArgument "SquareError criteria only takes two inputs.")
  else if inputIndex = 0 then
    .ok (sqErrComputeInputPartialLeft gradient00 leftMinusRight grad0, grad1)
  else
    .ok (grad0, sqErrComputeInputPartialRight gradient00 leftMinusRight grad1)

/-! ## CrossEntropyWithSoftmaxNode

`ComputeInputPartial(0)`:
  `ScaleAndAdd(-g00, m_logSoftmaxOfRight, Inputs(0)->GradientValues())` (no mask).
`ComputeInputPartial(1)`:
  `AddScaledDifference(g, m_softmaxOfRight, Inputs(0)->FunctionValues(), Inputs(1)->GradientValues())`
  followed by `Base::MaskToZeroWhenLabelAndFeatureMissing(Inputs(1)->GradientValues())`. -/

/-- `CrossEntropyWithSoftmaxNode::ComputeInputPartialLeft`. -/
def ceSMComputeInputPartialLeft (logSoftmaxOfRight : Mat) (gradient00 : ℚ)
    (inputGradientValues : Mat) : Mat :=
  fun r c => inputGradientValues r c + (-gradient00) * logSoftmaxOfRight r c

/-- `CrossEntropyWithSoftmaxNode::ComputeInputPartialRight`
(`AddScaledDifference(g, a, b, c)` adds `g00 * (a - b)` into `c`). -/
def ceSMComputeInputPartialRight (softmaxOfRight inputFunctionValues0 : Mat)
    (gradient00 : ℚ) (inputGradientValues : Mat) : Mat :=
  fun r c => inputGradientValues r c
    + gradient00 * (softmaxOfRight r c - inputFunctionValues0 r c)

/-- `CrossEntropyWithSoftmaxNode::ComputeInputPartial` : the label-input
gradient (index 0) is updated without masking; the logits-input
gradient (index 1) is updated and then the Sequence Mask re-applied to
the whole gradient tensor. -/
def ceSMComputeInputPartial (inputIndex : ℕ) (gradient00 : ℚ)
    (logSoftmaxOfRight softmaxOfRight label : Mat) (valid : ℕ → Bool)
    (grad0 grad1 : Mat) : Except NodeError (Mat × Mat) :=
  if inputIndex > 1 then
    .error (.invalidArgument "CrossEntropyWithSoftmaxNode criterion only takes two inputs.")
  else if inputIndex = 0 then
    .ok (ceSMComputeInputPartialLeft logSoftmaxOfRight gradient00 grad0, grad1)
  else
    .ok (grad0,
      maskZero valid
        (ceSMComputeInputPartialRight softmaxOfRight label gradient00 grad1))

/-! ## ClassBasedCrossEntropyWithSoftmaxNode

Label input is a 4 × T matrix: row 0 the word index, row 1 the class
index, row 2 the left word boundary of the class, row 3 the right word
boundary (exclusive).  `nbr_wrd = rgt_bnd - lft_bnd` is computed on
`size_t`; the embedding uses natural-number subtraction, which agrees
with the code whenever `lft_bnd ≤ rgt_bnd` (the claims only concern
`rgt_bnd = lft_bnd`). -/

/-- Word index `y_t = (size_t)lbl(0,t)`. -/
def cbY (lbls : Mat) (t : ℕ) : ℕ := q2n (lbls 0 t)

/-- Class index `c_t = (size_t)lbl(1,t)`. -/
def cbC (lbls : Mat) (t : ℕ) : ℕ := q2n (lbls 1 t)

/-- Left word boundary `lft_bnd = (size_t)lbl(2,t)`. -/
def cbLft (lbls : Mat) (t : ℕ) : ℕ := q2n (lbls 2 t)

/-- Right word boundary `rgt_bnd = (size_t)lbl(3,t)`. -/
def cbRgt (lbls : Mat) (t : ℕ) : ℕ := q2n (lbls 3 t)

/-- `nbr_wrd = rgt_bnd - lft_bnd`, the number of words in the class. -/
def cbNbrWrd (lbls : Mat) (t : ℕ) : ℕ := cbRgt lbls t - cbLft lbls t

/-- One iteration of the time loop of
`ClassBasedCrossEntropyWithSoftmaxNode::ComputeSoftMaxPartial`.
State: `(sz, m_softMax, m_grdToSoftMaxInput)`.  An empty class range
with word index zero is skipped; with a nonzero word index it raises
`LogicError`.  Otherwise the `m_softMax` column slice `[sz, sz+n)` is
turned in place into `g00 * (softmax - onehot(y_t - lft_bnd))`
(`ComputeCEPartialToSoftmaxInputs` = `MinusOneAt` then `Scale`) and
copied into `m_grdToSoftMaxInput`. -/
def cbSoftMaxPartialStep (lbls : Mat) (grad00 : ℚ)
    (acc : ℕ × Mat × Mat) (t : ℕ) : Except NodeError (ℕ × Mat × Mat) :=
  let sz := acc.1
  let softMax := acc.2.1
  let grdToSoftMaxInput := acc.2.2
  let n := cbNbrWrd lbls t
  if n = 0 then
    if cbY lbls t = 0 then .ok acc
    else .error (.logicError "ClassbasedCrossEntropyWithSoftmax::ComputeSoftMaxPartial label provided but the size of its class is zero.")
  else
    let idx := cbY lbls t - cbLft lbls t
    let softMax' : Mat := fun r c =>
      if r = 0 ∧ sz ≤ c ∧ c < sz + n then
        grad00 * (softMax r c - if c = sz + idx then 1 else 0)
      else softMax r c
    let grdTo' : Mat := fun r c =>
      if r = 0 ∧ sz ≤ c ∧ c < sz + n then softMax' r c else grdToSoftMaxInput r c
    .ok (sz + n, softMax', grdTo')

/-- `ClassBasedCrossEntropyWithSoftmaxNode::ComputeSoftMaxPartial` :
recomputes `m_grdToSoftMaxInput` lazily, guarded by
`m_needRecomputeGradientToSoftmaxInput`; returns the updated
`(m_softMax, m_grdToSoftMaxInput, m_needRecomputeGradientToSoftmaxInput)`. -/
def cbComputeSoftMaxPartial (lbls : Mat) (nT : ℕ) (grad00 : ℚ)
    (needRecompute : Bool) (softMax grdToSoftMaxInput : Mat) :
    Except NodeError (Mat × Mat × Bool) :=
  if needRecompute then
    ((List.range nT).foldlM (cbSoftMaxPartialStep lbls grad00)
        (0, softMax, grdToSoftMaxInput)).map
      (fun acc => (acc.2.1, acc.2.2, false))
  else .ok (softMax, grdToSoftMaxInput, needRecompute)

/-- Case `inputIndex == 1` of the time loop of
`ClassBasedCrossEntropyWithSoftmaxNode::ComputeInputPartial`
(`ComputeInputPartialRight`: `grd_t += input_weight_t * grd_to_soft_max_input^T`,
a `MultiplyAndAdd` into the frame slice at column `t`).  Columns with
an empty class range are skipped (`continue`). -/
def cbGradStep1 (lbls wgt grdToSoftMaxInput : Mat)
    (acc : ℕ × Mat) (t : ℕ) : ℕ × Mat :=
  let sz := acc.1
  let g1 := acc.2
  let n := cbNbrWrd lbls t
  if n = 0 then acc
  else
    let lft := cbLft lbls t
    (sz + n, fun r c =>
      if c = t then
        g1 r c + ∑ w ∈ Finset.range n, wgt r (lft + w) * grdToSoftMaxInput 0 (sz + w)
      else g1 r c)

/-- Case `inputIndex == 2` of the same loop (`ComputeInputPartialLeft`:
`grd_to_wgt_t += obs * grd_to_soft_max_input`, a `MultiplyAndAdd` into
the weight-gradient column slice `[lft_bnd, lft_bnd + nbr_wrd)`). -/
def cbGradStep2 (lbls obs grdToSoftMaxInput : Mat)
    (acc : ℕ × Mat) (t : ℕ) : ℕ × Mat :=
  let sz := acc.1
  let g2 := acc.2
  let n := cbNbrWrd lbls t
  if n = 0 then acc
  else
    let lft := cbLft lbls t
    (sz + n, fun r c =>
      if lft ≤ c ∧ c < lft + n then
        g2 r c + obs r t * grdToSoftMaxInput 0 (sz + (c - lft))
      else g2 r c)

/-- Case `inputIndex == 3` of the same loop: the frame slice of input
3's gradient at column `t` is set with `SetValue` to the cached class
softmax and then transformed by `ComputeCEPartialToSoftmaxInputs`
(`MinusOneAt` at row `c_t`, then `Scale` by the upstream gradient);
the previous contents of that column are not read. -/
def cbGradStep3 (lbls clsSoftmax : Mat) (grad00 : ℚ)
    (acc : ℕ × Mat) (t : ℕ) : ℕ × Mat :=
  let sz := acc.1
  let g3 := acc.2
  let n := cbNbrWrd lbls t
  if n = 0 then acc
  else
    (sz + n, fun r c =>
      if c = t then
        grad00 * (clsSoftmax r t - if r = cbC lbls t then 1 else 0)
      else g3 r c)

/-- Scratch and gradient state touched by
`ClassBasedCrossEntropyWithSoftmaxNode::ComputeInputPartial`. -/
structure CBGradState where
  softMax : Mat
  grdToSoftMaxInput : Mat
  needRecompute : Bool
  g1 : Mat
  g2 : Mat
  g3 : Mat

/-- `ClassBasedCrossEntropyWithSoftmaxNode::ComputeInputPartial` : any
input index outside {1,2,3} raises `InvalidArgument`; otherwise
`ComputeSoftMaxPartial` runs first and then the time loop updates the
gradient of the selected input. -/
def cbComputeInputPartial (inputIndex : ℕ) (lbls obs wgt clsSoftmax : Mat)
    (nT : ℕ) (grad00 : ℚ) (st : CBGradState) : Except NodeError CBGradState :=
  if inputIndex ≠ 1 ∧ inputIndex ≠ 2 ∧ inputIndex ≠ 3 then
    .error (.invalidArgument "ClassCrossEntropyWithSoftmaxNode criterion only takes with respect to input, weight to the input and class log posterior probability.")
  else
    (cbComputeSoftMaxPartial lbls nT grad00 st.needRecompute st.softMax
        st.grdToSoftMaxInput).map (fun acc =>
      let sm := acc.1
      let gts := acc.2.1
      let flag := acc.2.2
      if inputIndex = 1 then
        { st with
          softMax := sm
          grdToSoftMaxInput := gts
          needRecompute := flag
          g1 := ((List.range nT).foldl (cbGradStep1 lbls wgt gts) (0, st.g1)).2 }
      else if inputIndex = 2 then
        { st with
          softMax := sm
          grdToSoftMaxInput := gts
          needRecompute := flag
          g2 := ((List.range nT).foldl (cbGradStep2 lbls obs gts) (0, st.g2)).2 }
      else
        { st with
          softMax := sm
          grdToSoftMaxInput := gts
          needRecompute := flag
          g3 := ((List.range nT).foldl (cbGradStep3 lbls clsSoftmax grad00) (0, st.g3)).2 })

/-! ### ClassBased forward pass (`EvaluateThisNodeS` / `EvaluateThisNode`) -/

/-- `(obs^T * weightForClass)(0, w)`: the score of word `lft_bnd + w`
at time `t` (`logSoftMax_t.AssignProductOf(obs, false, weightForClass, false)`
after reshaping the observation column to a row). -/
def cbWordScore (inputs wgt : MatR) (nRow t lft w : ℕ) : ℝ :=
  ∑ r ∈ Finset.range nRow, inputs r t * wgt r (lft + w)

/-- Entry `w` of the in-class word log-soft-max
(`logSoftMax_t.InplaceLogSoftmax(false)` over the `nbr_wrd` class columns). -/
noncomputable def cbWordLogSoftmax (inputs wgt : MatR) (nRow t lft n w : ℕ) : ℝ :=
  cbWordScore inputs wgt nRow t lft w
    - Real.log (∑ v ∈ Finset.range n, Real.exp (cbWordScore inputs wgt nRow t lft v))

/-- Column-wise class log-soft-max of the class-logit input
(`clsLogSoftmax.InplaceLogSoftmax(true)` over the `nbrCls` rows). -/
noncomputable def cbClsLogSoftmaxM (clsIn : MatR) (nbrCls : ℕ) : MatR :=
  fun k t => clsIn k t - Real.log (∑ j ∈ Finset.range nbrCls, Real.exp (clsIn j t))

/-- Accumulator of the forward time loop: running slice offset `sz`,
accumulated loss (before the final negation), the `m_logSoftmax` /
`m_softMax` scratch contents, and the pending error if an exception
was thrown (later columns are then not processed). -/
structure CBForwardAcc where
  sz : ℕ
  fv : ℝ
  logSM : MatR
  smR : MatR
  err : Option NodeError

/-- One column of the forward loop of
`ClassBasedCrossEntropyWithSoftmaxNode::EvaluateThisNodeS`.
An empty class range is skipped when the word index is zero and raises
`LogicError` otherwise.  For a masked column the node's own
`MaskToZeroWhenLabelAndFeatureMissing(logSoftMax_t, t)` zeroes column
`t` of the 1 × nbr_wrd slice (`ColumnSlice(t,1)` throws when
`t ≥ nbr_wrd`) and neither the word nor the class term is added.
Otherwise the word log-soft-max slice is written, `y_t < lft_bnd`
raises `LogicError`, the word term is added, and the class term
`clsLogSoftmax(c_t, t)` is added (`AddElementToElement` throws when
`c_t` is outside the class rows). -/
noncomputable def cbForwardStep (lbls : Mat) (inputs wgt clsLS : MatR) (masked : ℕ → Bool)
    (nRow nbrCls : ℕ) (acc : CBForwardAcc) (t : ℕ) : CBForwardAcc :=
  if acc.err.isSome then acc else
  let y := cbY lbls t
  let c := cbC lbls t
  let lft := cbLft lbls t
  let n := cbNbrWrd lbls t
  if n = 0 then
    if y = 0 then acc
    else { acc with err := some (.logicError "ClassbasedCrossEntropyWithSoftmax::EvaluateThisNodeS label provided but the size of its class is zero.") }
  else
    if masked t then
      if t < n then
        { acc with
          sz := acc.sz + n
          logSM := fun r c' => if r = 0 ∧ c' = acc.sz + t then 0 else acc.logSM r c' }
      else { acc with err := some (.invalidArgument "ColumnSlice: startColumn + numCols exceeds the number of columns.") }
    else
      let lsm : ℕ → ℝ := fun w => cbWordLogSoftmax inputs wgt nRow t lft n w
      let logSM' : MatR := fun r c' =>
        if r = 0 ∧ acc.sz ≤ c' ∧ c' < acc.sz + n then lsm (c' - acc.sz) else acc.logSM r c'
      let smR' : MatR := fun r c' =>
        if r = 0 ∧ acc.sz ≤ c' ∧ c' < acc.sz + n then Real.exp (lsm (c' - acc.sz)) else acc.smR r c'
      if y < lft then
        { acc with
          logSM := logSM'
          smR := smR'
          err := some (.logicError "ClassBasedCrossEntropyWithSoftmax::EvaluateThisNodeS : the word index is smaller than its left bound of its class.") }
      else
        if nbrCls ≤ c then
          { acc with
            logSM := logSM'
            smR := smR'
            fv := acc.fv + lsm (y - lft)
            err := some (.runtimeError "number of classes is smaller than the dimension to read") }
        else
          { acc with
            sz := acc.sz + n
            logSM := logSM'
            smR := smR'
            fv := acc.fv + lsm (y - lft) + clsLS c t }

/-- Everything `EvaluateThisNodeS` writes: the scalar output, the four
soft-max scratch tensors, `m_totalNbrWords`, and the error if the call
threw (in which case the output holds the partial, un-negated sum). -/
structure CBForwardResult where
  functionValues : ℝ
  logSoftmax : MatR
  softMaxR : MatR
  clsLogSoftmax : MatR
  clsSoftmax : MatR
  totalWords : ℕ
  err : Option NodeError

/-- `ClassBasedCrossEntropyWithSoftmaxNode::EvaluateThisNodeS` :
counts the total words, computes the class log-soft-max and its exp,
runs the time loop, and negates the accumulated sum at the end. -/
noncomputable def cbEvaluateThisNodeS (lbls : Mat) (inputs wgt clsIn : MatR)
    (masked : ℕ → Bool) (nRow nbrCls nT : ℕ) (logSM0 smR0 : MatR) :
    CBForwardResult :=
  let totalWords := ∑ t ∈ Finset.range nT, cbNbrWrd lbls t
  let clsLS := cbClsLogSoftmaxM clsIn nbrCls
  let final := (List.range nT).foldl
    (cbForwardStep lbls inputs wgt clsLS masked nRow nbrCls)
    ⟨0, 0, logSM0, smR0, none⟩
  { functionValues := match final.err with
      | none => -final.fv
      | some _ => final.fv
    logSoftmax := final.logSM
    softMaxR := final.smR
    clsLogSoftmax := clsLS
    clsSoftmax := fun k t => Real.exp (clsLS k t)
    totalWords := totalWords
    err := final.err }

/-- The device id of the CPU (`CPUDEVICE` in the matrix library). -/
def CPUDEVICE : Int := -1

/-- Node state touched by
`ClassBasedCrossEntropyWithSoftmaxNode::EvaluateThisNode`. -/
structure CBNodeState where
  functionValues : ℝ
  logSoftmax : MatR
  softMaxR : MatR
  clsLogSoftmax : MatR
  clsSoftmax : MatR
  totalWords : ℕ
  needRecompute : Bool

/-- `ClassBasedCrossEntropyWithSoftmaxNode::EvaluateThisNode` : raises
`LogicError` when the label input's matrix does not reside on the CPU
device, before touching any state; the devices of the other three
inputs are never inspected.  On success it runs `EvaluateThisNodeS`
and then sets `m_needRecomputeGradientToSoftmaxInput = true`. -/
noncomputable def cbEvaluateThisNode (lblDevice dev1 dev2 dev3 : Int) (lbls : Mat)
    (inputs wgt clsIn : MatR) (masked : ℕ → Bool) (nRow nbrCls nT : ℕ)
    (st : CBNodeState) : CBNodeState × Option NodeError :=
  if lblDevice ≠ CPUDEVICE then
    (st, some (.logicError "ClassBasedCrossEntropyWithSoftmax: evaluatethisnode. the label matrix is not using CPU device."))
  else
    let r := cbEvaluateThisNodeS lbls inputs wgt clsIn masked nRow nbrCls nT
      st.logSoftmax st.softMaxR
    ({ functionValues := r.functionValues
       logSoftmax := r.logSoftmax
       softMaxR := r.softMaxR
       clsLogSoftmax := r.clsLogSoftmax
       clsSoftmax := r.clsSoftmax
       totalWords := r.totalWords
       needRecompute := match r.err with
         | none => true
         | some _ => st.needRecompute }, r.err)

/-! ## NoiseContrastiveEstimationNode

`enum NCEEvalMode { Softmax = 0, Unnormalized = 1, None = 2 }`. -/

/-- The persisted NCE evaluation mode. -/
inductive NCEEvalMode where
  | Softmax
  | Unnormalized
  | NoneMode
deriving DecidableEq, Repr

/-- The raw integer value of an `NCEEvalMode` as serialized. -/
def NCEEvalMode.raw : NCEEvalMode → ℕ
  | .Softmax => 0
  | .Unnormalized => 1
  | .NoneMode => 2

/-- The mode a raw value at most 2 decodes to. -/
def nceDecodeMode (v : ℕ) : NCEEvalMode :=
  if v = 0 then .Softmax else if v = 1 then .Unnormalized else .NoneMode

/-- Modelled from the spec: the serialization stream for the one
persisted enumerated value, a sequence of raw mode values with a
cursor measured in mode-widths (`sizeof(m_evalMode)` = one unit). -/
structure ModeStream where
  data : List ℕ
  pos : ℕ
deriving DecidableEq, Repr

/-- `NoiseContrastiveEstimationNode::SaveToFile` (the part beyond the
base class): `fstream << m_evalMode` appends the raw mode value and
advances the cursor one mode-width. -/
def nceSaveToFile (s : ModeStream) (rawMode : ℕ) : ModeStream :=
  { data := s.data ++ [rawMode], pos := s.pos + 1 }

/-- `NoiseContrastiveEstimationNode::LoadFromFile` (the part beyond the
base class): `fstream >> m_evalMode` reads one raw value and advances
the cursor; if the value is greater than `NCEEvalMode::None` the mode
is reset to `None` and the cursor rewound by one mode-width
(`SetPosition(GetPosition() - sizeof(m_evalMode))`).  Reading past the
end of the stream yields no value. -/
def nceLoadFromFile (s : ModeStream) : Option (NCEEvalMode × ModeStream) :=
  match s.data[s.pos]? with
  | Option.none => Option.none
  | Option.some v =>
    if v > NCEEvalMode.NoneMode.raw then
      Option.some (.NoneMode, { s with pos := s.pos + 1 - 1 })
    else
      Option.some (nceDecodeMode v, { s with pos := s.pos + 1 })

/-- Gradient state of the NCE node: the lazy-recompute flag and the
gradient tensors of inputs 1 (hidden), 2 (weight) and 3 (bias);
input 0 (the label) owns no derivative. -/
structure NCEGradState where
  needRecompute : Bool
  g1 : Mat
  g2 : Mat
  g3 : Mat

/-- `NoiseContrastiveEstimationNode::ComputeInputPartial` : the
recompute flag is cleared first; a mode other than `None` raises
`LogicError`, input index 0 raises `InvalidArgument`; otherwise
`AssignNCEDerivative` (an external tensor-engine operation, passed
here as a parameter) produces the requested input's gradient tensor. -/
def nceComputeInputPartial (assignNCEDerivative : ℕ → Mat → Mat)
    (inputIndex : ℕ) (evalMode : NCEEvalMode) (st : NCEGradState) :
    NCEGradState × Option NodeError :=
  let st := { st with needRecompute := false }
  if evalMode ≠ .NoneMode then
    (st, some (.logicError "ComputeInputPartial should only be called in training mode"))
  else if inputIndex = 0 then
    (st, some (.invalidArgument "ComputeInput partial should not be called for label"))
  else if inputIndex = 1 then
    ({ st with g1 := assignNCEDerivative 1 st.g1 }, none)
  else if inputIndex = 2 then
    ({ st with g2 := assignNCEDerivative 2 st.g2 }, none)
  else
    ({ st with g3 := assignNCEDerivative inputIndex st.g3 }, none)

/-- The three forward-evaluation paths of the NCE node. -/
inductive NCEPath where
  | softmaxPath
  | unnormalizedPath
  | ncePath
deriving DecidableEq, Repr

/-- `positive` counter of `NoiseContrastiveEstimationNode::EvaluateThisNode` :
number of strictly positive entries of the single label row, counted
only when the label input has exactly one row. -/
def ncePositive (lblRows lblCols : ℕ) (lbl : Mat) : ℕ :=
  if lblRows = 1 then
    ((List.range lblCols).filter (fun i => decide (0 < lbl 0 i))).length
  else 0

/-- `negative` counter: number of strictly negative entries of the
single label row, counted only when the label input has one row. -/
def nceNegative (lblRows lblCols : ℕ) (lbl : Mat) : ℕ :=
  if lblRows = 1 then
    ((List.range lblCols).filter (fun i => decide (lbl 0 i < 0))).length
  else 0

/-- The path-selection logic of
`NoiseContrastiveEstimationNode::EvaluateThisNode` :
softmax when `m_evalMode == Softmax` or the one-row label has a
positive entry; otherwise unnormalized when `m_evalMode == Unnormalized`
or the one-row label has a negative entry; otherwise the NCE training
objective. -/
def nceEvalPath (evalMode : NCEEvalMode) (lblRows lblCols : ℕ) (lbl : Mat) :
    NCEPath :=
  if evalMode = .Softmax ∨ (lblRows = 1 ∧ 0 < ncePositive lblRows lblCols lbl) then
    .softmaxPath
  else if evalMode = .Unnormalized ∨ (lblRows = 1 ∧ 0 < nceNegative lblRows lblCols lbl) then
    .unnormalizedPath
  else
    .ncePath

/-! ## DummyCriterionNode -/

/-- `DummyCriterionNode::ComputeInputPartial` : index above 2 raises
`InvalidArgument`; indices 0 (objectives) and 1 (derivatives) raise
`LogicError`; index 2 adds the upstream-gradient-scaled derivative
input into input 2's gradient
(`ComputeInputPartialThree`: `ScaleAndAdd(g00, Inputs(1)->FunctionValues(), grad)`). -/
def dummyComputeInputPartial (inputIndex : ℕ) (derivatives : Mat)
    (gradient00 : ℚ) (g0 g1 g2 : Mat) :
    (Mat × Mat × Mat) × Option NodeError :=
  if inputIndex > 2 then
    ((g0, g1, g2), some (.invalidArgument "DummyCriterionNode only takes three inputs."))
  else if inputIndex = 0 then
    ((g0, g1, g2), some (.logicError "DummyCriterionNode: derivatives with respect to objective features are not necessary, not implemented yet."))
  else if inputIndex = 1 then
    ((g0, g1, g2), some (.logicError "DummyCriterionNode: derivatives with respect to derivative features are not necessary, not implemented yet."))
  else
    ((g0, g1, fun r c => g2 r c + gradient00 * derivatives r c), none)

/-- What `DummyCriterionNode::Validate` reads of an attached input
node: its operation name and the shape of its function-value matrix. -/
structure NodeInfo where
  opName : String
  rows : ℕ
  cols : ℕ
deriving DecidableEq, Repr

/-- `HasNoElements()` of a function-value matrix. -/
def NodeInfo.hasNoElements (n : NodeInfo) : Bool := n.rows * n.cols = 0

/-- `DummyCriterionNode::Validate` : requires three inputs; both the
"computed objectives" and the "computed derivatives" structural checks
read input 0's operation name (input 1's operation name is never
inspected); input 0 must have one row; no input may be empty; inputs 1
and 2 must agree in rows; if their column counts differ, input 1's
function-value matrix is resized to input 2's column count.  Returns
the (possibly resized) inputs. -/
def dummyValidate (children : List NodeInfo) :
    Except NodeError (List NodeInfo) :=
  match children with
  | [i0, i1, i2] =>
    if i0.opName ≠ "InputValue" then
      .error (.logicError "DummyCriterionNode criterion requires the first input to be computed objectives.")
    else if i0.opName ≠ "InputValue" then
      .error (.logicError "DummyCriterionNode criterion requires the first input to be computed derivatives.")
    else if i0.rows ≠ 1 then
      .error (.logicError "DummyCriterionNode criterion requires the first input to have dimension 1.")
    else if i0.hasNoElements ∨ i1.hasNoElements ∨ i2.hasNoElements then
      .error (.logicError "DummyCriterionNode operation: one of the operants has 0 element.")
    else if i1.rows ≠ i2.rows then
      .error (.logicError "The Matrix dimension in the DummyCriterionNode operation does not match.")
    else if i1.cols ≠ i2.cols then
      .ok [i0, { i1 with cols := i2.cols }, i2]
    else
      .ok [i0, i1, i2]
  | _ => .error (.logicError "DummyCriterionNode criterion requires three inputs.")

/-! ## CRFNode

The forward dynamic program works in the log domain.  `LogAdd` and the
`LZERO` sentinel live in the external matrix library; they are
modelled from the spec: `logAdd(a,b) = log(exp(a)+exp(b))` computed in
a numerically stable way, and the sentinel taken as -infinity (the
spec reads the large negative sentinel as -inf), so a log-domain value
is either -infinity or a finite real. -/

/-- A log-domain value: the `LZERO` sentinel (-infinity) or a finite
real score. -/
inductive LogV where
  | bot : LogV
  | fin : ℝ → LogV

/-- Adding a finite score to a log-domain value. -/
noncomputable def LogV.addR : LogV → ℝ → LogV
  | .bot, _ => .bot
  | .fin a, r => .fin (a + r)

/-- The probability-domain weight of a log-domain value:
`exp` of the score, with `exp(-infinity) = 0`. -/
noncomputable def LogV.w : LogV → ℝ
  | .bot => 0
  | .fin a => Real.exp a

/-- Modelled from the spec: `LogAdd`, the stable log-sum-exp
`log(exp(a) + exp(b))`, with the sentinel absorbing. -/
noncomputable def logAdd : LogV → LogV → LogV
  | .bot, b => b
  | .fin a, .bot => .fin a
  | .fin a, .fin b => .fin (Real.log (Real.exp a + Real.exp b))

/-- The accumulation loop `fTmp = LZERO; for j: fTmp = LogAdd(fTmp, f j)`
over `j = 0 .. L-1`. -/
noncomputable def logSumJ (L : ℕ) (f : ℕ → LogV) : LogV :=
  (List.range L).foldl (fun acc j => logAdd acc (f j)) .bot

/-- The `firstLbl` scan: the first row index below `L` whose label
entry in column `t` is nonzero, if any (`-1` in the code otherwise). -/
def firstNonzeroRow (lbls : Mat) (L t : ℕ) : Option ℕ :=
  (List.range L).find? (fun ik => decide (lbls ik t ≠ 0))

/-- The start term of the forward recursion at `t = 0`:
`(j == firstLbl) ? 0 : LZERO`. -/
def crfInit (lbls : Mat) (L j : ℕ) : LogV :=
  if firstNonzeroRow lbls L 0 = some j then .fin 0 else .bot

/-- `CRFNode::ForwardCompute` : column `t` of the alpha matrix as a
function of the label row `k`,
`alpha(k,t) = pos(k,t) + fold_j LogAdd(acc, fAlpha(j) + pair(k,j))`
with `fAlpha(j)` the start term at `t = 0` and `alpha(j,t-1)` for
`t > 0`. -/
noncomputable def crfAlpha (lbls : Mat) (pos pair : MatR) (L : ℕ) :
    ℕ → ℕ → LogV
  | 0, k => (logSumJ L (fun j => (crfInit lbls L j).addR (pair k j))).addR (pos k 0)
  | (t+1), k =>
    (logSumJ L (fun j => (crfAlpha lbls pos pair L t j).addR (pair k j))).addR
      (pos k (t+1))

/-- `LogAddSumOfElements` (external) on the last alpha column,
modelled from the spec as the stable log-sum-exp over the labels. -/
noncomputable def crfLogAddSumLastCol (lbls : Mat) (pos pair : MatR)
    (L T : ℕ) : ℝ :=
  Real.log (∑ k ∈ Finset.range L, (crfAlpha lbls pos pair L (T - 1) k).w)

/-- The true-path transition score of `CRFNode::EvaluateThisNodeS` :
`for t < T-1: tscore += pair_scores(firstLbl(t+1), firstLbl(t))`
(when a column has no nonzero label the code indexes the pair matrix
at -1 — out of bounds; the theorems assume every column is labelled,
and the embedding reads index 0 there). -/
noncomputable def crfTransScore (lbls : Mat) (pair : MatR) (L T : ℕ) : ℝ :=
  ∑ t ∈ Finset.range (T - 1),
    pair ((firstNonzeroRow lbls L (t + 1)).getD 0)
      ((firstNonzeroRow lbls L t).getD 0)

/-- `CRFNode::EvaluateThisNodeS` (one sequence slice): the negative of
(inner product of labels and position scores, plus the true-path
transition score, minus the log-add-sum of the last alpha column). -/
noncomputable def crfEvalSlice (lbls : Mat) (pos pair : MatR) (L T : ℕ) : ℝ :=
  -(crfTransScore lbls pair L T
      + (∑ k ∈ Finset.range L, ∑ t ∈ Finset.range T, (lbls k t : ℝ) * pos k t)
      - crfLogAddSumLastCol lbls pos pair L T)

/-- `CRFNode::EvaluateThisNode` : the function value starts at zero and
accumulates the per-slice criterion over the parallel sequences, each
slice spanning `nstep = ncol / numParallelSequences` columns. -/
noncomputable def crfEvaluateThisNode (lbls : Mat) (pos pair : MatR)
    (L ncol nSeq : ℕ) : ℝ :=
  let nstep := ncol / nSeq
  ∑ i ∈ Finset.range nSeq,
    crfEvalSlice (fun k t => lbls k (i * nstep + t))
      (fun k t => pos k (i * nstep + t)) pair L nstep

/-- Modelled from the spec: `RCRFBackwardCompute` (external) produces
`beta` normalized to the log-marginal, so that `exp(beta)` is the
posterior label marginal.  On a length-1 sequence the posterior of
label `k` is `exp(alpha(k,0))` divided by the partition sum, so
`beta(k,0) = alpha(k,0) - logAddOverK(alpha(k,0))`. -/
noncomputable def crfBetaT1 (lbls : Mat) (pos pair : MatR) (L k : ℕ) : ℝ :=
  Real.log ((crfAlpha lbls pos pair L 0 k).w)
    - Real.log (∑ j ∈ Finset.range L, (crfAlpha lbls pos pair L 0 j).w)

/-- `CRFNode::ComputeInputPartial` : indices other than 1 and 2 raise
`InvalidArgument`; index 1 adds the upstream-gradient-scaled
(posterior - labels) into the position-score gradient
(`ErrorSignalToPostitionDependentNode` = `AddScaledDifference`);
index 2 updates the transition gradient through the external
`RCRFTransGrdCompute`, passed here as a parameter. -/
noncomputable def crfComputeInputPartial
    (transGrdCompute : ℕ → MatR → MatR) (inputIndex : ℕ)
    (gradient00 : ℝ) (lbls : Mat) (postProb : MatR) (nSeq : ℕ)
    (g1 g2 : MatR) : (MatR × MatR) × Option NodeError :=
  if inputIndex ≠ 1 ∧ inputIndex ≠ 2 then
    ((g1, g2), some (.invalidArgument "CRFNode only takes with respect to input and weight."))
  else if inputIndex = 1 then
    ((fun r c => g1 r c + gradient00 * (postProb r c - (lbls r c : ℝ)), g2), none)
  else
    ((g1, (List.range nSeq).foldl (fun g i => transGrdCompute i g) g2), none)

/-! ## Theorems -/

/-! ### Fold helpers for the class-based gradient loops -/

/-- A fold whose step adds a state-independent increment into the
matrix accumulates: the result over any prior equals the prior plus
the result over the zero tensor. -/
theorem foldl_add_of_step (step : (ℕ × Mat) → ℕ → (ℕ × Mat))
    (next : ℕ → ℕ → ℕ) (D : ℕ → ℕ → Mat)
    (hstep : ∀ sz G t, step (sz, G) t = (next sz t, fun r c => G r c + D sz t r c))
    (l : List ℕ) :
    ∀ (sz : ℕ) (G : Mat) (r c : ℕ),
      (l.foldl step (sz, G)).2 r c = G r c + (l.foldl step (sz, zeroMat)).2 r c := by
  induction l with
  | nil => intro sz G r c; simp [zeroMat]
  | cons a l ih =>
    intro sz G r c
    simp only [List.foldl_cons, hstep]
    rw [ih (next sz a) (fun r c => G r c + D sz a r c) r c,
      ih (next sz a) (fun r c => zeroMat r c + D sz a r c) r c]
    simp [zeroMat]
    ring

/-- `cbGradStep1` is such an additive step: skipped columns add
nothing, active columns add the weight-slice product into column `t`. -/
theorem cbGradStep1_eq_add (lbls wgt gts : Mat) (sz : ℕ) (G : Mat) (t : ℕ) :
    cbGradStep1 lbls wgt gts (sz, G) t
      = (sz + cbNbrWrd lbls t, fun r c =>
          G r c + if cbNbrWrd lbls t = 0 then 0 else
            if c = t then
              ∑ w ∈ Finset.range (cbNbrWrd lbls t),
                wgt r (cbLft lbls t + w) * gts 0 (sz + w)
            else 0) := by
  by_cases h : cbNbrWrd lbls t = 0 <;>
    simp [cbGradStep1, h] <;>
    funext r c <;>
    by_cases hc : c = t <;> simp [hc]

/-- `cbGradStep2` likewise: active columns add the observation-scaled
soft-max gradient into the class's weight columns. -/
theorem cbGradStep2_eq_add (lbls obs gts : Mat) (sz : ℕ) (G : Mat) (t : ℕ) :
    cbGradStep2 lbls obs gts (sz, G) t
      = (sz + cbNbrWrd lbls t, fun r c =>
          G r c + if cbNbrWrd lbls t = 0 then 0 else
            if cbLft lbls t ≤ c ∧ c < cbLft lbls t + cbNbrWrd lbls t then
              obs r t * gts 0 (sz + (c - cbLft lbls t))
            else 0) := by
  by_cases h : cbNbrWrd lbls t = 0 <;>
    simp [cbGradStep2, h] <;>
    funext r c <;>
    by_cases hc : cbLft lbls t ≤ c ∧ c < cbLft lbls t + cbNbrWrd lbls t <;>
    simp [hc]

/-- The `inputIndex == 3` loop writes each active column once and
never reads it back: after the fold, an active column holds
`g00 * (clsSoftmax - onehot(c_t))` whatever the start state was. -/
theorem foldl_cbGradStep3_overwrite (lbls clsSoftmax : Mat) (grad00 : ℚ) :
    ∀ (nT sz : ℕ) (G : Mat) (r t0 : ℕ), t0 < nT → cbNbrWrd lbls t0 ≠ 0 →
      ((List.range nT).foldl (cbGradStep3 lbls clsSoftmax grad00) (sz, G)).2 r t0
        = grad00 * (clsSoftmax r t0 - if r = cbC lbls t0 then 1 else 0) := by
  intro nT
  induction nT with
  | zero => intro sz G r t0 h; exact absurd h (Nat.not_lt_zero t0)
  | succ m ih =>
    intro sz G r t0 ht hn
    rw [List.range_succ, List.foldl_append, List.foldl_cons, List.foldl_nil]
    rcases Nat.lt_succ_iff_lt_or_eq.mp ht with hlt | heq
    · have hstep : ∀ (p : ℕ × Mat),
          (cbGradStep3 lbls clsSoftmax grad00 p m).2 r t0 = p.2 r t0 := by
        intro p
        by_cases h0 : cbNbrWrd lbls m = 0
        · simp [cbGradStep3, h0]
        · have : t0 ≠ m := Nat.ne_of_lt hlt
          simp [cbGradStep3, h0, this]
      rw [hstep]
      exact ih sz G r t0 hlt hn
    · subst heq
      simp [cbGradStep3, hn]

/-- A step that leaves the accumulator alone once the error field is
set: folding from an error state is the identity. -/
theorem foldl_cbForwardStep_of_err (lbls : Mat) (inputs wgt clsLS : MatR)
    (masked : ℕ → Bool) (nRow nbrCls : ℕ) (l : List ℕ) :
    ∀ acc : CBForwardAcc, acc.err.isSome →
      l.foldl (cbForwardStep lbls inputs wgt clsLS masked nRow nbrCls) acc = acc := by
  induction l with
  | nil => intro acc _; rfl
  | cons a l ih =>
    intro acc h
    have hstep : cbForwardStep lbls inputs wgt clsLS masked nRow nbrCls acc a = acc := by
      simp [cbForwardStep, h]
    rw [List.foldl_cons, hstep]
    exact ih acc h

/-- Once a column with an empty class range and a nonzero word index
lies in the fold range, the forward loop ends in the error state. -/
theorem foldl_cbForwardStep_poison (lbls : Mat) (inputs wgt clsLS : MatR)
    (masked : ℕ → Bool) (nRow nbrCls : ℕ) (t0 : ℕ)
    (h0 : cbNbrWrd lbls t0 = 0) (hy : cbY lbls t0 ≠ 0) (l : List ℕ) :
    ∀ acc : CBForwardAcc, t0 ∈ l →
      (l.foldl (cbForwardStep lbls inputs wgt clsLS masked nRow nbrCls) acc).err.isSome := by
  induction l with
  | nil => intro acc h; exact absurd h (List.not_mem_nil t0)
  | cons a l ih =>
    intro acc hmem
    rw [List.foldl_cons]
    by_cases hsome : (cbForwardStep lbls inputs wgt clsLS masked nRow nbrCls acc a).err.isSome
    · rw [foldl_cbForwardStep_of_err lbls inputs wgt clsLS masked nRow nbrCls l _ hsome]
      exact hsome
    · have hne : a ≠ t0 := by
        intro h
        subst h
        by_cases haccerr : acc.err.isSome
        · exact hsome (by simpa [cbForwardStep, haccerr])
        · have : acc.err = none := Option.not_isSome_iff_eq_none.mp haccerr
          exact hsome (by simp [cbForwardStep, this, h0, hy])
      have : t0 ∈ l := by
        rcases List.mem_cons.mp hmem with h | h
        · exact absurd h.symm hne
        · exact h
      exact ih _ this

/-- A `foldlM` over `Except` whose list contains an element on which
the step always fails, fails. -/
theorem foldlM_except_poison {α : Type} (step : α → ℕ → Except NodeError α)
    (t0 : ℕ) (hpoison : ∀ acc, ∃ er, step acc t0 = .error er) (l : List ℕ) :
    ∀ acc : α, t0 ∈ l → ∃ er, l.foldlM step acc = .error er := by
  induction l with
  | nil => intro acc h; exact absurd h (List.not_mem_nil t0)
  | cons a l ih =>
    intro acc hmem
    cases hstep : step acc a with
    | error er =>
      refine ⟨er, ?_⟩
      rw [List.foldlM_cons, hstep]
      rfl
    | ok acc' =>
      have hne : a ≠ t0 := by
        intro h
        subst h
        obtain ⟨er, her⟩ := hpoison acc
        rw [hstep] at her
        exact Except.noConfusion her
      have ht : t0 ∈ l := by
        rcases List.mem_cons.mp hmem with h | h
        · exact absurd h.symm hne
        · exact h
      obtain ⟨er, her⟩ := ih acc' ht
      refine ⟨er, ?_⟩
      rw [List.foldlM_cons, hstep]
      simpa using her

/-- C1 counterexample: for ClassBasedCrossEntropyWithSoftmax's input 3
(the class-posterior input), `ComputeInputPartial` does not add into
the gradient tensor: with prior contents 5 at the active cell the
result is -1/2, the same value obtained from a zero prior, and
5 + (-1/2) is not -1/2 — the prior is overwritten, not accumulated. -/
theorem C1_counterexample_class_input3_overwrites :
    ((cbComputeInputPartial 3 (fun r c => if r = 3 ∧ c = 0 then 1 else 0)
        zeroMat zeroMat (fun r c => if r = 0 ∧ c = 0 then 1/2 else 0) 1 1
        ⟨zeroMat, zeroMat, false, zeroMat, zeroMat, fun _ _ => 5⟩).map
      (fun st => st.g3 0 0) = .ok (-(1/2) : ℚ))
  ∧ ((cbComputeInputPartial 3 (fun r c => if r = 3 ∧ c = 0 then 1 else 0)
        zeroMat zeroMat (fun r c => if r = 0 ∧ c = 0 then 1/2 else 0) 1 1
        ⟨zeroMat, zeroMat, false, zeroMat, zeroMat, zeroMat⟩).map
      (fun st => st.g3 0 0) = .ok (-(1/2) : ℚ))
  ∧ (5 : ℚ) + -(1/2) ≠ -(1/2) := by
  refine ⟨?_, ?_, by norm_num⟩ <;>
    norm_num [cbComputeInputPartial, cbComputeSoftMaxPartial, cbGradStep3,
      cbNbrWrd, cbRgt, cbLft, cbC, cbY, q2n, List.range_succ, Except.map,
      zeroMat, Rat.floor]

/-- C1 (amended): `computeGradient` accumulates (adds) into the target
gradient tensor for SquareError's two inputs, CrossEntropyWithSoftmax's
label input unconditionally and its logits input on mask-valid columns
(mask-invalid columns of the logits gradient are zeroed by the
re-applied Sequence Mask), and ClassBasedCrossEntropyWithSoftmax's
inputs 1 and 2; the class-posterior input 3 is the exception: each
active time column of its gradient is overwritten with
`g * (clsSoftmax - onehot(c_t))` regardless of the prior contents. -/
theorem C1_gradient_accumulation :
    (∀ (g : ℚ) (lmr G : Mat) (r c : ℕ),
       sqErrComputeInputPartialLeft g lmr G r c
         = G r c + sqErrComputeInputPartialLeft g lmr zeroMat r c)
  ∧ (∀ (g : ℚ) (lmr G : Mat) (r c : ℕ),
       sqErrComputeInputPartialRight g lmr G r c
         = G r c + sqErrComputeInputPartialRight g lmr zeroMat r c)
  ∧ (∀ (g : ℚ) (lsm G : Mat) (r c : ℕ),
       ceSMComputeInputPartialLeft lsm g G r c
         = G r c + ceSMComputeInputPartialLeft lsm g zeroMat r c)
  ∧ (∀ (g : ℚ) (sm lbl : Mat) (valid : ℕ → Bool) (G : Mat) (r c : ℕ),
       maskZero valid (ceSMComputeInputPartialRight sm lbl g G) r c
         = if valid c then
             G r c + maskZero valid (ceSMComputeInputPartialRight sm lbl g zeroMat) r c
           else 0)
  ∧ (∀ (lbls obs wgt cls : Mat) (nT : ℕ) (g : ℚ) (sm gts : Mat) (b : Bool)
       (G1 G2 G3 : Mat) (r c : ℕ),
       (cbComputeInputPartial 1 lbls obs wgt cls nT g
           ⟨sm, gts, b, G1, G2, G3⟩).map (fun st => st.g1 r c)
         = (cbComputeInputPartial 1 lbls obs wgt cls nT g
             ⟨sm, gts, b, zeroMat, G2, G3⟩).map (fun st => G1 r c + st.g1 r c))
  ∧ (∀ (lbls obs wgt cls : Mat) (nT : ℕ) (g : ℚ) (sm gts : Mat) (b : Bool)
       (G1 G2 G3 : Mat) (r c : ℕ),
       (cbComputeInputPartial 2 lbls obs wgt cls nT g
           ⟨sm, gts, b, G1, G2, G3⟩).map (fun st => st.g2 r c)
         = (cbComputeInputPartial 2 lbls obs wgt cls nT g
             ⟨sm, gts, b, G1, zeroMat, G3⟩).map (fun st => G2 r c + st.g2 r c))
  ∧ (∀ (lbls obs wgt cls : Mat) (nT : ℕ) (g : ℚ) (sm gts : Mat) (b : Bool)
       (G1 G2 G3 : Mat) (r t0 : ℕ), t0 < nT → cbNbrWrd lbls t0 ≠ 0 →
       (cbComputeInputPartial 3 lbls obs wgt cls nT g
           ⟨sm, gts, b, G1, G2, G3⟩).map (fun st => st.g3 r t0)
         = (cbComputeSoftMaxPartial lbls nT g b sm gts).map
             (fun _ => g * (cls r t0 - if r = cbC lbls t0 then 1 else 0))) := by
  refine ⟨?_, ?_, ?_, ?_, ?_, ?_, ?_⟩
  · intro g lmr G r c
    simp [sqErrComputeInputPartialLeft, zeroMat]
  · intro g lmr G r c
    simp [sqErrComputeInputPartialRight, zeroMat]
  · intro g lsm G r c
    simp [ceSMComputeInputPartialLeft, zeroMat]
  · intro g sm lbl valid G r c
    by_cases hv : valid c <;>
      simp [maskZero, ceSMComputeInputPartialRight, zeroMat, hv]
  · intro lbls obs wgt cls nT g sm gts b G1 G2 G3 r c
    cases h : cbComputeSoftMaxPartial lbls nT g b sm gts with
    | error e => simp [cbComputeInputPartial, h, Except.map]
    | ok acc =>
      simp only [cbComputeInputPartial, h]
      norm_num [Except.map]
      exact foldl_add_of_step _ _ _
        (fun sz G t => cbGradStep1_eq_add lbls wgt acc.2.1 sz G t)
        (List.range nT) 0 G1 r c
  · intro lbls obs wgt cls nT g sm gts b G1 G2 G3 r c
    cases h : cbComputeSoftMaxPartial lbls nT g b sm gts with
    | error e => simp [cbComputeInputPartial, h, Except.map]
    | ok acc =>
      simp only [cbComputeInputPartial, h]
      norm_num [Except.map]
      exact foldl_add_of_step _ _ _
        (fun sz G t => cbGradStep2_eq_add lbls obs acc.2.1 sz G t)
        (List.range nT) 0 G2 r c
  · intro lbls obs wgt cls nT g sm gts b G1 G2 G3 r t0 ht hn
    cases h : cbComputeSoftMaxPartial lbls nT g b sm gts with
    | error e => simp [cbComputeInputPartial, h, Except.map]
    | ok acc =>
      simp only [cbComputeInputPartial, h]
      norm_num [Except.map]
      exact foldl_cbGradStep3_overwrite lbls cls g nT 0 G3 r t0 ht hn

/-- C1 witness: a concrete active column (left bound 0, right bound 1,
class index 0) where the input-3 gradient column is set to
`g * (clsSoftmax - onehot)` through the amended theorem's overwrite
clause. -/
theorem C1_gradient_accumulation_witness :
    (0 < 1 ∧ cbNbrWrd (fun r c => if r = 3 ∧ c = 0 then 1 else 0) 0 ≠ 0)
  ∧ (cbComputeInputPartial 3 (fun r c => if r = 3 ∧ c = 0 then 1 else 0)
        zeroMat zeroMat (fun r c => if r = 0 ∧ c = 0 then 1/2 else 0) 1 1
        ⟨zeroMat, zeroMat, false, zeroMat, zeroMat, fun _ _ => 5⟩).map
      (fun st => st.g3 0 0)
    = (cbComputeSoftMaxPartial (fun r c => if r = 3 ∧ c = 0 then 1 else 0)
        1 1 false zeroMat zeroMat).map
        (fun _ => 1 * ((fun r c => if r = 0 ∧ c = 0 then (1 : ℚ)/2 else 0) 0 0
          - if 0 = cbC (fun r c => if r = 3 ∧ c = 0 then 1 else 0) 0 then 1 else 0)) :=
  ⟨⟨by decide, by decide⟩,
    C1_gradient_accumulation.2.2.2.2.2.2
      (fun r c => if r = 3 ∧ c = 0 then 1 else 0) zeroMat zeroMat
      (fun r c => if r = 0 ∧ c = 0 then 1/2 else 0) 1 1 zeroMat zeroMat false
      zeroMat zeroMat (fun _ _ => 5) 0 0 (by decide) (by decide)⟩

/-- C7: In ClassBasedCrossEntropyWithSoftmax a time column whose class
range is empty and whose word index is zero is skipped entirely —
every loop of the forward pass and of the gradient pass leaves its
accumulator unchanged at that column, independently of the Sequence
Mask; if the class range is empty but the word index is nonzero, the
forward evaluation and the (recomputing) soft-max gradient pass raise
an error instead. -/
theorem C7_class_empty_range_skip (lbls : Mat) (t0 : ℕ)
    (h0 : cbNbrWrd lbls t0 = 0) :
    (cbY lbls t0 = 0 →
       (∀ (inputs wgt clsLS : MatR) (masked : ℕ → Bool) (nRow nbrCls : ℕ)
          (acc : CBForwardAcc),
          cbForwardStep lbls inputs wgt clsLS masked nRow nbrCls acc t0 = acc)
     ∧ (∀ (g : ℚ) (acc : ℕ × Mat × Mat), cbSoftMaxPartialStep lbls g acc t0 = .ok acc)
     ∧ (∀ (wgt gts : Mat) (acc : ℕ × Mat), cbGradStep1 lbls wgt gts acc t0 = acc)
     ∧ (∀ (obs gts : Mat) (acc : ℕ × Mat), cbGradStep2 lbls obs gts acc t0 = acc)
     ∧ (∀ (cls : Mat) (g : ℚ) (acc : ℕ × Mat), cbGradStep3 lbls cls g acc t0 = acc))
  ∧ (cbY lbls t0 ≠ 0 →
       (∀ (inputs wgt clsIn : MatR) (masked : ℕ → Bool) (nRow nbrCls nT : ℕ)
          (lsm0 sm0 : MatR), t0 < nT →
          (cbEvaluateThisNodeS lbls inputs wgt clsIn masked nRow nbrCls nT
            lsm0 sm0).err.isSome = true)
     ∧ (∀ (nT : ℕ) (g : ℚ) (sm gts : Mat), t0 < nT →
          ∃ e, cbComputeSoftMaxPartial lbls nT g true sm gts = .error e)) := by
  constructor
  · intro hy
    refine ⟨?_, ?_, ?_, ?_, ?_⟩
    · intro inputs wgt clsLS masked nRow nbrCls acc
      by_cases herr : acc.err.isSome <;> simp [cbForwardStep, herr, h0, hy]
    · intro g acc
      simp [cbSoftMaxPartialStep, h0, hy]
    · intro wgt gts acc
      simp [cbGradStep1, h0]
    · intro obs gts acc
      simp [cbGradStep2, h0]
    · intro cls g acc
      simp [cbGradStep3, h0]
  · intro hy
    constructor
    · intro inputs wgt clsIn masked nRow nbrCls nT lsm0 sm0 ht
      simp only [cbEvaluateThisNodeS]
      exact foldl_cbForwardStep_poison lbls inputs wgt
        (cbClsLogSoftmaxM clsIn nbrCls) masked nRow nbrCls t0 h0 hy
        (List.range nT) _ (List.mem_range.mpr ht)
    · intro nT g sm gts ht
      have hpoison : ∀ acc : ℕ × Mat × Mat,
          ∃ er, cbSoftMaxPartialStep lbls g acc t0 = .error er := by
        intro acc
        exact ⟨.logicError "ClassbasedCrossEntropyWithSoftmax::ComputeSoftMaxPartial label provided but the size of its class is zero.",
          by simp [cbSoftMaxPartialStep, h0, hy]⟩
      obtain ⟨er, her⟩ := foldlM_except_poison (cbSoftMaxPartialStep lbls g)
        t0 hpoison (List.range nT) (0, sm, gts) (List.mem_range.mpr ht)
      exact ⟨er, by simp [cbComputeSoftMaxPartial, her, Except.map]⟩

/-- C7 witness: a concrete column with an empty class range — with
word index zero the soft-max gradient step returns its accumulator
unchanged; with word index one the forward pass on that single column
fails. -/
theorem C7_class_empty_range_skip_witness :
    (cbNbrWrd (fun _ _ => 0) 0 = 0 ∧ cbY (fun _ _ => 0) 0 = 0
      ∧ cbSoftMaxPartialStep (fun _ _ => 0) 1 (0, zeroMat, zeroMat) 0
          = .ok (0, zeroMat, zeroMat))
  ∧ (cbNbrWrd (fun r _ => if r = 0 then 1 else 0) 0 = 0
      ∧ cbY (fun r _ => if r = 0 then 1 else 0) 0 ≠ 0
      ∧ (0 : ℕ) < 1
      ∧ ∃ e, cbComputeSoftMaxPartial (fun r _ => if r = 0 then 1 else 0)
          1 1 true zeroMat zeroMat = .error e) :=
  ⟨⟨by decide, by decide,
      ((C7_class_empty_range_skip (fun _ _ => 0) 0 (by decide)).1
        (by decide)).2.1 1 (0, zeroMat, zeroMat)⟩,
   ⟨by decide, by decide, by decide,
      ((C7_class_empty_range_skip (fun r _ => if r = 0 then 1 else 0) 0
        (by decide)).2 (by decide)).2 1 1 zeroMat zeroMat (by decide)⟩⟩

/-- C4: The NCE node's persisted evaluation mode round-trips through
serialization: writing mode Unnormalized and reading it back yields
Unnormalized with the stream cursor advanced past the value; reading a
raw value outside the enumeration's range (greater than None) yields
mode None with the stream cursor rewound by one mode-width, i.e.
positioned exactly one mode-width before where the read left it; and
in-range raw values Softmax, Unnormalized and None decode to
themselves unaltered. -/
theorem C4_nce_mode_roundtrip :
    (∀ s : ModeStream,
      nceLoadFromFile
          { data := (nceSaveToFile s NCEEvalMode.Unnormalized.raw).data
            pos := s.data.length }
        = some (NCEEvalMode.Unnormalized,
            { data := s.data ++ [NCEEvalMode.Unnormalized.raw]
              pos := s.data.length + 1 }))
  ∧ (∀ (s : ModeStream) (v : ℕ), s.data[s.pos]? = some v →
      NCEEvalMode.NoneMode.raw < v →
      nceLoadFromFile s
        = some (NCEEvalMode.NoneMode, { s with pos := s.pos + 1 - 1 }))
  ∧ (∀ (s : ModeStream) (m : NCEEvalMode), s.data[s.pos]? = some m.raw →
      nceLoadFromFile s = some (m, { s with pos := s.pos + 1 })) := by
  refine ⟨fun s => ?_, fun s v hv hgt => ?_, fun s m hm => ?_⟩
  · simp [nceLoadFromFile, nceSaveToFile, List.getElem?_concat_length,
      NCEEvalMode.raw, nceDecodeMode]
  · have hgt2 : 2 < v := hgt
    simp [nceLoadFromFile, hv, hgt2, NCEEvalMode.raw]
  · cases m <;>
      simp [nceLoadFromFile, hm, NCEEvalMode.raw, nceDecodeMode]

/-- C4 witness: a concrete out-of-range load (raw value 5 at cursor 0
decodes to None with the cursor back at 0) and a concrete in-range
round trip of Unnormalized. -/
theorem C4_nce_mode_roundtrip_witness :
    nceLoadFromFile ⟨[5], 0⟩ = some (NCEEvalMode.NoneMode, ⟨[5], 0⟩)
  ∧ nceLoadFromFile ⟨[1], 0⟩ = some (NCEEvalMode.Unnormalized, ⟨[1], 1⟩) := by
  constructor
  · have h := C4_nce_mode_roundtrip.2.1 ⟨[5], 0⟩ 5 rfl (by decide)
    simpa using h
  · have h := C4_nce_mode_roundtrip.2.2 ⟨[1], 0⟩ NCEEvalMode.Unnormalized rfl
    simpa [NCEEvalMode.raw] using h

/-- C5: For CrossEntropyWithSoftmax, `ComputeInputPartial(0)` adds
`-g` times the cached log-soft-max into the label input's gradient and
applies no mask to it, while `ComputeInputPartial(1)` adds `g` times
(softmax - label) into the logits input's gradient and then re-applies
the Sequence Mask (invalid columns zeroed) to that gradient tensor. -/
theorem C5_cross_entropy_softmax_gradients (g : ℚ) (logSM sm lbl : Mat)
    (valid : ℕ → Bool) (g0 g1 : Mat) :
    ceSMComputeInputPartial 0 g logSM sm lbl valid g0 g1
      = .ok (fun r c => g0 r c + (-g) * logSM r c, g1)
  ∧ ceSMComputeInputPartial 1 g logSM sm lbl valid g0 g1
      = .ok (g0, fun r c =>
          if valid c then g1 r c + g * (sm r c - lbl r c) else 0) :=
  ⟨rfl, rfl⟩

/-- C6: `computeGradient` on an input with no defined derivative
raises an error and leaves every gradient tensor unchanged: input 0
(label) of NoiseContrastiveEstimation (only the lazy-recompute flag,
not a gradient tensor, is cleared first), inputs 0 (objectives) and 1
(derivatives) of DummyCriterion, and input 0 (label) of the CRF node. -/
theorem C6_invalid_gradient_target :
    (∀ (assignD : ℕ → Mat → Mat) (mode : NCEEvalMode) (st : NCEGradState),
       ∃ e, nceComputeInputPartial assignD 0 mode st
         = ({ st with needRecompute := false }, some e))
  ∧ (∀ (deriv : Mat) (g : ℚ) (g0 g1 g2 : Mat),
       (∃ e, dummyComputeInputPartial 0 deriv g g0 g1 g2 = ((g0, g1, g2), some e))
     ∧ (∃ e, dummyComputeInputPartial 1 deriv g g0 g1 g2 = ((g0, g1, g2), some e)))
  ∧ (∀ (tg : ℕ → MatR → MatR) (g00 : ℝ) (lbls : Mat) (post : MatR)
       (nSeq : ℕ) (g1 g2 : MatR),
       ∃ e, crfComputeInputPartial tg 0 g00 lbls post nSeq g1 g2
         = ((g1, g2), some e)) := by
  refine ⟨fun assignD mode st => ?_, fun deriv g g0 g1 g2 => ⟨?_, ?_⟩,
    fun tg g00 lbls post nSeq g1 g2 => ?_⟩
  · cases mode <;> exact ⟨_, rfl⟩
  · exact ⟨_, rfl⟩
  · exact ⟨_, rfl⟩
  · exact ⟨_, rfl⟩

/-- C8 counterexample: with stored mode Softmax and a one-row label
whose only entry is negative (and none positive), the forward
evaluation takes the softmax path, not the unnormalized path the
claim requires the sign override to force. -/
theorem C8_counterexample_negative_label_softmax_mode :
    nceEvalPath NCEEvalMode.Softmax 1 1 (fun _ _ => -1) = NCEPath.softmaxPath
  ∧ NCEPath.softmaxPath ≠ NCEPath.unnormalizedPath := by
  exact ⟨by decide, by decide⟩

/-- C8 (amended): with a one-row label, a positive entry forces the
softmax path for every stored mode; a negative entry (with no positive
entry) forces the unnormalized path only when the stored mode is not
Softmax — mode Softmax always takes the softmax path; with no sign
override the stored mode selects the path, the NCE objective when the
mode is None. -/
theorem C8_nce_mode_selection (mode : NCEEvalMode) (rows cols : ℕ) (lbl : Mat) :
    (rows = 1 → 0 < ncePositive rows cols lbl →
       nceEvalPath mode rows cols lbl = .softmaxPath)
  ∧ (mode = .Softmax → nceEvalPath mode rows cols lbl = .softmaxPath)
  ∧ (rows = 1 → mode ≠ .Softmax → ncePositive rows cols lbl = 0 →
       0 < nceNegative rows cols lbl →
       nceEvalPath mode rows cols lbl = .unnormalizedPath)
  ∧ (ncePositive rows cols lbl = 0 → nceNegative rows cols lbl = 0 →
       nceEvalPath mode rows cols lbl =
         match mode with
         | .Softmax => .softmaxPath
         | .Unnormalized => .unnormalizedPath
         | .NoneMode => .ncePath) := by
  refine ⟨fun h1 hp => ?_, fun hm => ?_, fun h1 hm hp hn => ?_,
    fun hp hn => ?_⟩
  · subst h1; simp [nceEvalPath, hp]
  · simp [nceEvalPath, hm]
  · subst h1; cases mode <;> simp_all [nceEvalPath]
  · cases mode <;> simp_all [nceEvalPath]

/-- C8 witness: concrete instances of the amended selection rule — a
positive one-entry label overrides stored mode Unnormalized to the
softmax path; a negative one-entry label with stored mode None takes
the unnormalized path; an all-zero label with mode None takes the NCE
path. -/
theorem C8_nce_mode_selection_witness :
    nceEvalPath NCEEvalMode.Unnormalized 1 1 (fun _ _ => 1) = .softmaxPath
  ∧ nceEvalPath NCEEvalMode.NoneMode 1 1 (fun _ _ => -1) = .unnormalizedPath
  ∧ nceEvalPath NCEEvalMode.NoneMode 1 1 (fun _ _ => 0) = .ncePath := by
  refine ⟨(C8_nce_mode_selection _ _ _ _).1 rfl (by decide),
    (C8_nce_mode_selection _ _ _ _).2.2.1 rfl (by decide) (by decide) (by decide),
    (C8_nce_mode_selection _ _ _ _).2.2.2 (by decide) (by decide)⟩

/-- C10 counterexample: input 0 an InputValue with one row, inputs 1
and 2 with matching (zero) row counts — yet `Validate` fails with the
zero-element check, so validation does not succeed for every such
configuration as the claim states. -/
theorem C10_counterexample_dummy_validate_zero_elements :
    dummyValidate [⟨"InputValue", 1, 1⟩, ⟨"Times", 0, 5⟩, ⟨"Plus", 0, 5⟩]
      = .error (.logicError "DummyCriterionNode operation: one of the operants has 0 element.") := by
  rfl

/-- C10 (amended): `DummyCriterionNode::Validate` checks input 0's
operation name for both structural requirements and never inspects
input 1's operation name: for any node attached as input 1, validation
succeeds provided input 0 is an InputValue with one row and at least
one element, inputs 1 and 2 are nonempty, and their row counts agree;
when the column counts of inputs 1 and 2 differ, input 1 is resized to
input 2's column count instead of a shape error. -/
theorem C10_dummy_validate_ignores_input1_type (i0 i1 i2 : NodeInfo)
    (hop : i0.opName = "InputValue") (hrow : i0.rows = 1)
    (h0 : i0.hasNoElements = false) (h1 : i1.hasNoElements = false)
    (h2 : i2.hasNoElements = false) (hrows : i1.rows = i2.rows) :
    dummyValidate [i0, i1, i2] = .ok [i0, { i1 with cols := i2.cols }, i2] := by
  obtain ⟨o0, r0, c0⟩ := i0
  obtain ⟨o1, r1, c1⟩ := i1
  obtain ⟨o2, r2, c2⟩ := i2
  simp only [NodeInfo.hasNoElements] at h0 h1 h2
  simp only at hop hrow hrows
  by_cases hc : c1 = c2 <;>
    simp_all [dummyValidate, NodeInfo.hasNoElements]

/-- C10 witness: a concrete validation where input 1 is not an
InputValue and has fewer columns than input 2; validation succeeds and
resizes input 1 to input 2's column count. -/
theorem C10_dummy_validate_witness :
    dummyValidate [⟨"InputValue", 1, 1⟩, ⟨"Times", 2, 3⟩, ⟨"Plus", 2, 7⟩]
      = .ok [⟨"InputValue", 1, 1⟩, ⟨"Times", 2, 7⟩, ⟨"Plus", 2, 7⟩] :=
  C10_dummy_validate_ignores_input1_type _ _ _ rfl rfl (by decide) (by decide)
    (by decide) rfl

/-- C9: ClassBasedCrossEntropyWithSoftmax's forward evaluation
requires the label input's matrix to reside on the CPU device: when
the label matrix's device is not the CPU the call raises `LogicError`
before performing any computation, leaving the node's output and
scratch tensors unchanged; the devices of the other three inputs are
never inspected. -/
theorem C9_class_label_requires_cpu (lblDevice dev1 dev2 dev3 : Int)
    (lbls : Mat) (inputs wgt clsIn : MatR) (masked : ℕ → Bool)
    (nRow nbrCls nT : ℕ) (st : CBNodeState) :
    (lblDevice ≠ CPUDEVICE →
       cbEvaluateThisNode lblDevice dev1 dev2 dev3 lbls inputs wgt clsIn
           masked nRow nbrCls nT st
         = (st, some (.logicError "ClassBasedCrossEntropyWithSoftmax: evaluatethisnode. the label matrix is not using CPU device.")))
  ∧ (∀ d1 d2 d3 : Int,
       cbEvaluateThisNode lblDevice dev1 dev2 dev3 lbls inputs wgt clsIn
           masked nRow nbrCls nT st
         = cbEvaluateThisNode lblDevice d1 d2 d3 lbls inputs wgt clsIn
             masked nRow nbrCls nT st) := by
  constructor
  · intro h
    simp [cbEvaluateThisNode, h]
  · intro d1 d2 d3
    rfl

/-- C9 witness: with the label matrix on device 0 (a GPU id) and the
other inputs on arbitrary devices, the forward call fails and returns
the state unchanged. -/
theorem C9_class_label_requires_cpu_witness :
    cbEvaluateThisNode 0 1 2 3 (fun _ _ => 0) (fun _ _ => 0) (fun _ _ => 0)
        (fun _ _ => 0) (fun _ => false) 1 1 1
        ⟨7, (fun _ _ => 0), (fun _ _ => 0), (fun _ _ => 0), (fun _ _ => 0), 0, true⟩
      = (⟨7, (fun _ _ => 0), (fun _ _ => 0), (fun _ _ => 0), (fun _ _ => 0), 0, true⟩,
         some (.logicError "ClassBasedCrossEntropyWithSoftmax: evaluatethisnode. the label matrix is not using CPU device.")) :=
  (C9_class_label_requires_cpu 0 1 2 3 (fun _ _ => 0) (fun _ _ => 0)
      (fun _ _ => 0) (fun _ _ => 0) (fun _ => false) 1 1 1
      ⟨7, (fun _ _ => 0), (fun _ _ => 0), (fun _ _ => 0), (fun _ _ => 0), 0, true⟩).1
    (by decide)

/-! ### Log-domain lemmas for the CRF dynamic program -/

/-- `logAdd` adds weights: `exp` of the stable log-sum-exp is the sum
of the `exp`s, with the sentinel contributing weight zero. -/
theorem LogV.w_logAdd (a b : LogV) : (logAdd a b).w = a.w + b.w := by
  cases a with
  | bot => simp [logAdd, LogV.w]
  | fin x =>
    cases b with
    | bot => simp [logAdd, LogV.w]
    | fin y =>
      simp only [logAdd, LogV.w]
      exact Real.exp_log (by positivity)

/-- Weights are nonnegative. -/
theorem LogV.w_nonneg (v : LogV) : 0 ≤ v.w := by
  cases v with
  | bot => simp [LogV.w]
  | fin x => exact le_of_lt (Real.exp_pos x)

/-- The weight vanishes exactly on the sentinel. -/
theorem LogV.w_eq_zero_iff (v : LogV) : v.w = 0 ↔ v = .bot := by
  cases v with
  | bot => simp [LogV.w]
  | fin x => simp [LogV.w, Real.exp_ne_zero]

/-- A non-sentinel value has positive weight. -/
theorem LogV.w_pos_of_ne_bot (v : LogV) (h : v ≠ .bot) : 0 < v.w := by
  rcases lt_or_eq_of_le (LogV.w_nonneg v) with h' | h'
  · exact h'
  · exact absurd ((LogV.w_eq_zero_iff v).mp h'.symm) h

/-- A non-sentinel log-domain value is the log of its weight. -/
theorem LogV.eq_fin_log_w (v : LogV) (h : v ≠ .bot) :
    v = .fin (Real.log v.w) := by
  cases v with
  | bot => exact absurd rfl h
  | fin x => simp [LogV.w, Real.log_exp]

/-- `addR` of the sentinel is the sentinel. -/
theorem LogV.addR_eq_bot_iff (v : LogV) (r : ℝ) :
    v.addR r = .bot ↔ v = .bot := by
  cases v <;> simp [LogV.addR]

/-- The weight of the `LogAdd` accumulation loop is the weight of the
start value plus the sum of the weights of the summands. -/
theorem foldl_logAdd_w (l : List LogV) :
    ∀ acc : LogV, (l.foldl logAdd acc).w = acc.w + (l.map LogV.w).sum := by
  induction l with
  | nil => intro acc; simp
  | cons a l ih =>
    intro acc
    rw [List.foldl_cons, ih (logAdd acc a)]
    simp [LogV.w_logAdd]
    ring

/-- Sum over `List.range` as a `Finset.range` sum. -/
theorem sum_map_range (f : ℕ → ℝ) (n : ℕ) :
    ((List.range n).map f).sum = ∑ j ∈ Finset.range n, f j := by
  induction n with
  | zero => simp
  | succ m ih =>
    rw [List.range_succ, List.map_append, List.sum_append,
      Finset.sum_range_succ, ih]
    simp

/-- The weight of `logSumJ` is the sum of the summand weights. -/
theorem logSumJ_w (L : ℕ) (f : ℕ → LogV) :
    (logSumJ L f).w = ∑ j ∈ Finset.range L, (f j).w := by
  have h1 : logSumJ L f = ((List.range L).map f).foldl logAdd .bot := by
    rw [List.foldl_map]
    rfl
  rw [h1, foldl_logAdd_w, List.map_map]
  have h2 : LogV.w LogV.bot = 0 := rfl
  rw [h2, zero_add]
  exact sum_map_range (fun j => (f j).w) L

/-- The accumulation loop started at the sentinel is not the sentinel
once one summand below `L` is finite. -/
theorem logSumJ_ne_bot (L : ℕ) (f : ℕ → LogV)
    (h : ∃ j, j < L ∧ f j ≠ .bot) : logSumJ L f ≠ .bot := by
  obtain ⟨j0, hj0, hne⟩ := h
  intro hb
  have hw := (LogV.w_eq_zero_iff _).mpr hb
  rw [logSumJ_w] at hw
  have hpos : 0 < ∑ j ∈ Finset.range L, (f j).w :=
    Finset.sum_pos' (fun j _ => LogV.w_nonneg _)
      ⟨j0, Finset.mem_range.mpr hj0, LogV.w_pos_of_ne_bot _ hne⟩
  exact absurd hw (ne_of_gt hpos)

/-- When some summand below `L` is not the sentinel, the `LogAdd`
accumulation loop started at the sentinel equals the log of the sum of
the summand weights — the stable log-sum-exp over `j`. -/
theorem logSumJ_eq (L : ℕ) (f : ℕ → LogV)
    (h : ∃ j, j < L ∧ f j ≠ .bot) :
    logSumJ L f = .fin (Real.log (∑ j ∈ Finset.range L, (f j).w)) := by
  rw [LogV.eq_fin_log_w (logSumJ L f) (logSumJ_ne_bot L f h), logSumJ_w]

/-- The `firstLbl` scan returns the least row with a nonzero entry. -/
theorem firstNonzeroRow_eq (lbls : Mat) (L t i0 : ℕ) (h0 : i0 < L)
    (h1 : lbls i0 t ≠ 0) (h2 : ∀ j, j < i0 → lbls j t = 0) :
    firstNonzeroRow lbls L t = some i0 := by
  unfold firstNonzeroRow
  induction L with
  | zero => exact absurd h0 (Nat.not_lt_zero i0)
  | succ m ih =>
    rw [List.range_succ, List.find?_append]
    rcases Nat.lt_succ_iff_lt_or_eq.mp h0 with hlt | heq
    · rw [ih hlt]
      rfl
    · subst heq
      have hnone : (List.range i0).find? (fun ik => decide (lbls ik t ≠ 0)) = none := by
        rw [List.find?_eq_none]
        intro j hj
        simp [h2 j (List.mem_range.mp hj)]
      rw [hnone]
      simp [h1]

/-- The start term at `t = 0` as selected by the `firstLbl` scan. -/
theorem crfInit_eq (lbls : Mat) (L i0 : ℕ)
    (hfirst : firstNonzeroRow lbls L 0 = some i0) (j : ℕ) :
    crfInit lbls L j = if j = i0 then LogV.fin 0 else .bot := by
  by_cases hj : j = i0
  · subst hj
    simp [crfInit, hfirst]
  · simp [crfInit, hfirst, hj, Ne.symm hj]

/-- When the first label column has a nonzero entry, every alpha value
is finite (never the sentinel). -/
theorem crfAlpha_ne_bot (lbls : Mat) (pos pair : MatR) (L i0 : ℕ)
    (h0 : i0 < L) (hfirst : firstNonzeroRow lbls L 0 = some i0) :
    ∀ t k, crfAlpha lbls pos pair L t k ≠ .bot := by
  intro t
  induction t with
  | zero =>
    intro k
    simp only [crfAlpha, ne_eq, LogV.addR_eq_bot_iff]
    refine logSumJ_ne_bot L _ ⟨i0, h0, ?_⟩
    rw [crfInit_eq lbls L i0 hfirst i0]
    simp [LogV.addR]
  | succ m ih =>
    intro k
    simp only [crfAlpha, ne_eq, LogV.addR_eq_bot_iff]
    refine logSumJ_ne_bot L _ ⟨i0, h0, ?_⟩
    simp only [ne_eq, LogV.addR_eq_bot_iff]
    exact ih i0

/-- The forward recursion in closed form: with a nonzero entry in the
first label column at row `i0`, every alpha entry equals the position
score plus the log-sum-exp over the previous labels, with the start
term `0` at `j = i0` and the sentinel elsewhere at `t = 0`. -/
theorem crfAlpha_recursion (lbls : Mat) (pos pair : MatR) (L i0 : ℕ)
    (h0 : i0 < L) (hfirst : firstNonzeroRow lbls L 0 = some i0)
    (t k : ℕ) :
    crfAlpha lbls pos pair L t k
      = .fin (pos k t + Real.log (∑ j ∈ Finset.range L,
          (((if t = 0 then (if j = i0 then LogV.fin 0 else .bot)
             else crfAlpha lbls pos pair L (t - 1) j)).addR (pair k j)).w)) := by
  cases t with
  | zero =>
    have hne : (crfInit lbls L i0).addR (pair k i0) ≠ .bot := by
      rw [crfInit_eq lbls L i0 hfirst i0]
      simp [LogV.addR]
    have hsum := logSumJ_eq L (fun j => (crfInit lbls L j).addR (pair k j))
      ⟨i0, h0, hne⟩
    have hstep : crfAlpha lbls pos pair L 0 k
        = (logSumJ L fun j => (crfInit lbls L j).addR (pair k j)).addR (pos k 0) := rfl
    rw [hstep, hsum]
    have hred : ∀ j : ℕ,
        (if (0 : ℕ) = 0 then (if j = i0 then LogV.fin 0 else LogV.bot)
         else crfAlpha lbls pos pair L (0 - 1) j) = crfInit lbls L j := by
      intro j
      rw [crfInit_eq lbls L i0 hfirst j]
      simp
    have hsum2 : (∑ j ∈ Finset.range L,
          (((if (0 : ℕ) = 0 then (if j = i0 then LogV.fin 0 else LogV.bot)
             else crfAlpha lbls pos pair L (0 - 1) j)).addR (pair k j)).w)
        = ∑ j ∈ Finset.range L, ((crfInit lbls L j).addR (pair k j)).w :=
      Finset.sum_congr rfl (fun j _ => by rw [hred j])
    rw [hsum2]
    exact congrArg LogV.fin (add_comm _ _)
  | succ m =>
    have hne : (crfAlpha lbls pos pair L m i0).addR (pair k i0) ≠ .bot := by
      simp only [ne_eq, LogV.addR_eq_bot_iff]
      exact crfAlpha_ne_bot lbls pos pair L i0 h0 hfirst m i0
    have hsum := logSumJ_eq L
      (fun j => (crfAlpha lbls pos pair L m j).addR (pair k j)) ⟨i0, h0, hne⟩
    have hstep : crfAlpha lbls pos pair L (m + 1) k
        = (logSumJ L fun j => (crfAlpha lbls pos pair L m j).addR (pair k j)).addR
            (pos k (m + 1)) := rfl
    rw [hstep, hsum]
    have hred : ∀ j : ℕ,
        (if (m + 1 : ℕ) = 0 then (if j = i0 then LogV.fin 0 else LogV.bot)
         else crfAlpha lbls pos pair L (m + 1 - 1) j) = crfAlpha lbls pos pair L m j := by
      intro j
      simp
    have hsum2 : (∑ j ∈ Finset.range L,
          (((if (m + 1 : ℕ) = 0 then (if j = i0 then LogV.fin 0 else LogV.bot)
             else crfAlpha lbls pos pair L (m + 1 - 1) j)).addR (pair k j)).w)
        = ∑ j ∈ Finset.range L, ((crfAlpha lbls pos pair L m j).addR (pair k j)).w :=
      Finset.sum_congr rfl (fun j _ => by rw [hred j])
    rw [hsum2]
    exact congrArg LogV.fin (add_comm _ _)

/-- C2: the CRF forward dynamic program satisfies, for every position
`t` and label `k`, `alpha[k,t] = posScores[k,t] + logAddOverJ(f(j) +
pairScores[k,j])` with `f(j) = alpha[j,t-1]` for `t > 0` and, at
`t = 0`, `f(j) = 0` for the label whose one-hot entry is nonzero in
the first label column and the `-inf` sentinel otherwise, where
`logAdd` is the stable log-sum-exp (`exp` of the sentinel is zero). -/
theorem C2_crf_forward_recursion (lbls : Mat) (pos pair : MatR) (L i0 : ℕ)
    (h0 : i0 < L) (h1 : lbls i0 0 ≠ 0)
    (h2 : ∀ j, j < L → j ≠ i0 → lbls j 0 = 0) (t k : ℕ) :
    crfAlpha lbls pos pair L t k
      = .fin (pos k t + Real.log (∑ j ∈ Finset.range L,
          (((if t = 0 then (if j = i0 then LogV.fin 0 else .bot)
             else crfAlpha lbls pos pair L (t - 1) j)).addR (pair k j)).w)) := by
  have hfirst : firstNonzeroRow lbls L 0 = some i0 :=
    firstNonzeroRow_eq lbls L 0 i0 h0 h1
      (fun j hj => h2 j (lt_trans hj h0) (Nat.ne_of_lt hj))
  exact crfAlpha_recursion lbls pos pair L i0 h0 hfirst t k

/-- C2 witness: a single label (`L = 1`), one-hot first column, zero
scores; the recursion equation holds at `t = 0`, `k = 0`. -/
theorem C2_crf_forward_recursion_witness :
    ((0 : ℕ) < 1)
  ∧ ((fun (r _ : ℕ) => if r = 0 then (1 : ℚ) else 0) 0 0 ≠ 0)
  ∧ crfAlpha (fun r _ => if r = 0 then (1 : ℚ) else 0) (fun _ _ => 0)
        (fun _ _ => 0) 1 0 0
      = .fin ((fun (_ _ : ℕ) => (0 : ℝ)) 0 0
          + Real.log (∑ j ∈ Finset.range 1,
              (((if (0 : ℕ) = 0 then (if j = 0 then LogV.fin 0 else .bot)
                 else crfAlpha (fun r _ => if r = 0 then (1 : ℚ) else 0)
                   (fun _ _ => 0) (fun _ _ => 0) 1 (0 - 1) j)).addR
                ((fun (_ _ : ℕ) => (0 : ℝ)) 0 j)).w)) :=
  ⟨Nat.zero_lt_one, by norm_num,
    C2_crf_forward_recursion (fun r _ => if r = 0 then (1 : ℚ) else 0)
      (fun _ _ => 0) (fun _ _ => 0) 1 0 Nat.zero_lt_one (by norm_num)
      (fun j hj hne => absurd (Nat.lt_one_iff.mp hj) hne) 0 0⟩

/-! ### CRF forward output -/

/-- At `t = 0` every alpha entry is the initial transition score out
of the first label plus the position score: the fold has exactly one
finite summand. -/
theorem crfAlpha_zero_one_hot (lbls : Mat) (pos pair : MatR) (L i0 : ℕ)
    (h0 : i0 < L) (hfirst : firstNonzeroRow lbls L 0 = some i0) (k : ℕ) :
    crfAlpha lbls pos pair L 0 k = .fin (0 + pair k i0 + pos k 0) := by
  have hinit : ∀ j, crfInit lbls L j = if j = i0 then LogV.fin 0 else .bot :=
    crfInit_eq lbls L i0 hfirst
  have hne : (crfInit lbls L i0).addR (pair k i0) ≠ .bot := by
    rw [hinit i0]
    simp [LogV.addR]
  have hsum := logSumJ_eq L (fun j => (crfInit lbls L j).addR (pair k j))
    ⟨i0, h0, hne⟩
  have hsingle : (∑ j ∈ Finset.range L, ((crfInit lbls L j).addR (pair k j)).w)
      = Real.exp (0 + pair k i0) := by
    rw [Finset.sum_eq_single_of_mem i0 (Finset.mem_range.mpr h0)]
    · rw [hinit i0]
      simp [LogV.addR, LogV.w]
    · intro b _ hb
      rw [hinit b, if_neg hb]
      simp [LogV.addR, LogV.w]
  have hstep : crfAlpha lbls pos pair L 0 k
      = (logSumJ L fun j => (crfInit lbls L j).addR (pair k j)).addR (pos k 0) := rfl
  rw [hstep, hsum, hsingle]
  simp only [LogV.addR, Real.log_exp]

/-- A one-hot column's inner product with the position scores picks
out the position score of the active label. -/
theorem sum_one_hot_mul (lbls : Mat) (pos : MatR) (L t i0 : ℕ)
    (h0 : i0 < L) (h1 : lbls i0 t = 1)
    (h2 : ∀ j, j < L → j ≠ i0 → lbls j t = 0) :
    (∑ k ∈ Finset.range L, (lbls k t : ℝ) * pos k t) = pos i0 t := by
  rw [Finset.sum_eq_single_of_mem i0 (Finset.mem_range.mpr h0)]
  · rw [h1]
    norm_num
  · intro b hb hne
    rw [h2 b (Finset.mem_range.mp hb) hne]
    norm_num

/-- `EvaluateThisNodeS` on one slice with one-hot labels of value 1:
the criterion is the negative of (true-path position score plus
true-path transition score minus the log-add-sum of the last alpha
column). -/
theorem crfEvalSlice_one_hot (lbls : Mat) (pos pair : MatR) (L T : ℕ)
    (lab : ℕ → ℕ)
    (hlab : ∀ t, t < T → lab t < L ∧ lbls (lab t) t = 1
      ∧ ∀ j, j < L → j ≠ lab t → lbls j t = 0) :
    crfEvalSlice lbls pos pair L T
      = -((∑ t ∈ Finset.range T, pos (lab t) t)
          + (∑ t ∈ Finset.range (T - 1), pair (lab (t + 1)) (lab t))
          - crfLogAddSumLastCol lbls pos pair L T) := by
  have hfirstAt : ∀ t, t < T → firstNonzeroRow lbls L t = some (lab t) := by
    intro t ht
    obtain ⟨hL, h1, h2⟩ := hlab t ht
    exact firstNonzeroRow_eq lbls L t (lab t) hL (by rw [h1]; norm_num)
      (fun j hj => h2 j (lt_trans hj hL) (Nat.ne_of_lt hj))
  have hip : (∑ k ∈ Finset.range L, ∑ t ∈ Finset.range T, (lbls k t : ℝ) * pos k t)
      = ∑ t ∈ Finset.range T, pos (lab t) t := by
    rw [Finset.sum_comm]
    refine Finset.sum_congr rfl (fun t ht => ?_)
    obtain ⟨hL, h1, h2⟩ := hlab t (Finset.mem_range.mp ht)
    exact sum_one_hot_mul lbls pos L t (lab t) hL h1 h2
  have htrans : crfTransScore lbls pair L T
      = ∑ t ∈ Finset.range (T - 1), pair (lab (t + 1)) (lab t) := by
    unfold crfTransScore
    refine Finset.sum_congr rfl (fun t ht => ?_)
    have ht' := Finset.mem_range.mp ht
    have h1 : t < T := by omega
    have h2 : t + 1 < T := by omega
    rw [hfirstAt t h1, hfirstAt (t + 1) h2]
    rfl
  unfold crfEvalSlice
  rw [hip, htrans]
  ring

/-- C3 counterexample: two labels, a length-1 sequence with the one
active label at row 0, zero position scores, and self-transition score
`log 2` out of label 0.  The code's `alpha[0,0]` is `log 2`, not the
position score `0` the claim asserts, and the slice output is `log 3`,
not the claimed `-posScores[0,0] + logAddOverK(posScores[k,0]) = log 2`. -/
theorem C3_counterexample_initial_transition :
    crfAlpha (fun r c => if r = 0 ∧ c = 0 then 1 else 0) (fun _ _ => 0)
        (fun k j => if k = 0 ∧ j = 0 then Real.log 2 else 0) 2 0 0
      ≠ .fin 0
  ∧ crfEvalSlice (fun r c => if r = 0 ∧ c = 0 then 1 else 0) (fun _ _ => 0)
        (fun k j => if k = 0 ∧ j = 0 then Real.log 2 else 0) 2 1
      ≠ -(0 : ℝ) + Real.log (∑ k ∈ Finset.range 2, Real.exp (0 : ℝ)) := by
  have hfirst : firstNonzeroRow (fun r c => if r = 0 ∧ c = 0 then (1 : ℚ) else 0) 2 0
      = some 0 := by decide
  have halpha0 := crfAlpha_zero_one_hot
    (fun r c => if r = 0 ∧ c = 0 then (1 : ℚ) else 0) (fun _ _ => 0)
    (fun k j => if k = 0 ∧ j = 0 then Real.log 2 else 0) 2 0 (by norm_num) hfirst 0
  have halpha1 := crfAlpha_zero_one_hot
    (fun r c => if r = 0 ∧ c = 0 then (1 : ℚ) else 0) (fun _ _ => 0)
    (fun k j => if k = 0 ∧ j = 0 then Real.log 2 else 0) 2 0 (by norm_num) hfirst 1
  have hlog2 : (0 : ℝ) < Real.log 2 := Real.log_pos (by norm_num)
  constructor
  · rw [halpha0]
    intro hcontra
    rw [LogV.fin.injEq] at hcontra
    norm_num at hcontra
  · have hslice := crfEvalSlice_one_hot
      (fun r c => if r = 0 ∧ c = 0 then (1 : ℚ) else 0) (fun _ _ => 0)
      (fun k j => if k = 0 ∧ j = 0 then Real.log 2 else 0) 2 1 (fun _ => 0)
      (by
        intro t ht
        interval_cases t
        refine ⟨by norm_num, by norm_num, ?_⟩
        intro j hj hne
        interval_cases j
        · exact absurd rfl hne
        · norm_num)
    rw [hslice]
    have hlast : crfLogAddSumLastCol (fun r c => if r = 0 ∧ c = 0 then (1 : ℚ) else 0)
        (fun _ _ => 0) (fun k j => if k = 0 ∧ j = 0 then Real.log 2 else 0) 2 1
        = Real.log 3 := by
      unfold crfLogAddSumLastCol
      rw [Finset.sum_range_succ, Finset.sum_range_succ, Finset.sum_range_zero,
        halpha0, halpha1]
      simp only [LogV.w]
      norm_num [Real.exp_log]
    rw [hlast]
    simp only [Finset.sum_range_succ, Finset.sum_range_zero, Real.exp_zero]
    norm_num
    intro h
    have h23 : Real.log 2 < Real.log 3 := Real.log_lt_log (by norm_num) (by norm_num)
    exact absurd h (ne_of_gt h23)

/-- C3 (amended): on a length-1 sequence with the one-hot label at
index `i0`, `alpha[k,0] = pairScores[k,i0] + posScores[k,0]` (the
initial transition out of the first label is included),
`beta[k,0] = alpha[k,0] - logAddOverK(alpha[k,0])` under the
spec-modelled log-marginal normalization, and the output is
`-(posScores[i0,0] - logAddOverK(posScores[k,0] + pairScores[k,i0]))`;
in general the node output is the negative of ((true-path position
score plus true-path transition score) minus `logAddOverK(alpha[k,T-1])`),
summed over all parallel sequences of the batch. -/
theorem C3_crf_output :
    (∀ (lbls : Mat) (pos pair : MatR) (L ncol nSeq : ℕ) (lab : ℕ → ℕ),
       (∀ col, col < ncol → lab col < L ∧ lbls (lab col) col = 1
          ∧ ∀ j, j < L → j ≠ lab col → lbls j col = 0) →
       crfEvaluateThisNode lbls pos pair L ncol nSeq
         = ∑ i ∈ Finset.range nSeq,
             -((∑ t ∈ Finset.range (ncol / nSeq),
                 pos (lab (i * (ncol / nSeq) + t)) (i * (ncol / nSeq) + t))
               + (∑ t ∈ Finset.range (ncol / nSeq - 1),
                   pair (lab (i * (ncol / nSeq) + (t + 1)))
                     (lab (i * (ncol / nSeq) + t)))
               - crfLogAddSumLastCol (fun k t => lbls k (i * (ncol / nSeq) + t))
                   (fun k t => pos k (i * (ncol / nSeq) + t)) pair L
                   (ncol / nSeq)))
  ∧ (∀ (lbls : Mat) (pos pair : MatR) (L i0 : ℕ), i0 < L → lbls i0 0 = 1 →
       (∀ j, j < L → j ≠ i0 → lbls j 0 = 0) →
       (∀ k, crfAlpha lbls pos pair L 0 k = .fin (pair k i0 + pos k 0))
     ∧ (∀ k, crfBetaT1 lbls pos pair L k
         = pair k i0 + pos k 0
           - Real.log (∑ j ∈ Finset.range L, Real.exp (pair j i0 + pos j 0)))
     ∧ crfEvalSlice lbls pos pair L 1
         = -(pos i0 0
             - Real.log (∑ k ∈ Finset.range L, Real.exp (pos k 0 + pair k i0)))) := by
  constructor
  · intro lbls pos pair L ncol nSeq lab hlab
    unfold crfEvaluateThisNode
    refine Finset.sum_congr rfl (fun i hi => ?_)
    have hi' := Finset.mem_range.mp hi
    have hbound : ∀ t, t < ncol / nSeq → i * (ncol / nSeq) + t < ncol := by
      intro t ht
      have h1 : i * (ncol / nSeq) + t < (i + 1) * (ncol / nSeq) := by
        rw [Nat.succ_mul]
        omega
      have h2 : (i + 1) * (ncol / nSeq) ≤ nSeq * (ncol / nSeq) :=
        Nat.mul_le_mul_right _ (Nat.succ_le_of_lt hi')
      have h3 : nSeq * (ncol / nSeq) ≤ ncol := by
        rw [Nat.mul_comm]
        exact Nat.div_mul_le_self ncol nSeq
      omega
    exact crfEvalSlice_one_hot (fun k t => lbls k (i * (ncol / nSeq) + t))
      (fun k t => pos k (i * (ncol / nSeq) + t)) pair L (ncol / nSeq)
      (fun t => lab (i * (ncol / nSeq) + t))
      (fun t ht => hlab (i * (ncol / nSeq) + t) (hbound t ht))
  · intro lbls pos pair L i0 h0 h1 h2
    have hfirst : firstNonzeroRow lbls L 0 = some i0 :=
      firstNonzeroRow_eq lbls L 0 i0 h0 (by rw [h1]; norm_num)
        (fun j hj => h2 j (lt_trans hj h0) (Nat.ne_of_lt hj))
    have halpha : ∀ k, crfAlpha lbls pos pair L 0 k
        = .fin (pair k i0 + pos k 0) := by
      intro k
      rw [crfAlpha_zero_one_hot lbls pos pair L i0 h0 hfirst k]
      exact congrArg LogV.fin (by ring)
    refine ⟨halpha, fun k => ?_, ?_⟩
    · unfold crfBetaT1
      rw [halpha k]
      have hsum : (∑ j ∈ Finset.range L, (crfAlpha lbls pos pair L 0 j).w)
          = ∑ j ∈ Finset.range L, Real.exp (pair j i0 + pos j 0) := by
        refine Finset.sum_congr rfl (fun j _ => ?_)
        rw [halpha j]
        rfl
      rw [hsum]
      simp [LogV.w, Real.log_exp]
    · have hslice := crfEvalSlice_one_hot lbls pos pair L 1 (fun _ => i0)
        (by
          intro t ht
          have ht0 : t = 0 := Nat.lt_one_iff.mp ht
          subst ht0
          exact ⟨h0, h1, h2⟩)
      rw [hslice]
      have hlast : crfLogAddSumLastCol lbls pos pair L 1
          = Real.log (∑ k ∈ Finset.range L, Real.exp (pos k 0 + pair k i0)) := by
        unfold crfLogAddSumLastCol
        refine congrArg Real.log (Finset.sum_congr rfl (fun k _ => ?_))
        rw [show (1 : ℕ) - 1 = 0 from rfl, halpha k]
        simp only [LogV.w]
        exact congrArg Real.exp (by ring)
      rw [hlast, Finset.sum_range_one]
      norm_num

/-- C3 witness: a single label, single column, all scores zero — both
the batch-level formula (one slice) and the length-1 closed forms hold. -/
theorem C3_crf_output_witness :
    ((∀ col : ℕ, col < 1 →
        (fun _ : ℕ => 0) col < 1
        ∧ (fun (r _ : ℕ) => if r = 0 then (1 : ℚ) else 0) ((fun _ : ℕ => 0) col) col = 1
        ∧ ∀ j, j < 1 → j ≠ (fun _ : ℕ => 0) col →
            (fun (r _ : ℕ) => if r = 0 then (1 : ℚ) else 0) j col = 0)
      ∧ crfEvaluateThisNode (fun r _ => if r = 0 then (1 : ℚ) else 0)
          (fun _ _ => 0) (fun _ _ => 0) 1 1 1
        = ∑ i ∈ Finset.range 1,
            -((∑ t ∈ Finset.range (1 / 1),
                (fun (_ _ : ℕ) => (0 : ℝ)) ((fun _ : ℕ => 0) (i * (1 / 1) + t)) (i * (1 / 1) + t))
              + (∑ t ∈ Finset.range (1 / 1 - 1),
                  (fun (_ _ : ℕ) => (0 : ℝ)) ((fun _ : ℕ => 0) (i * (1 / 1) + (t + 1)))
                    ((fun _ : ℕ => 0) (i * (1 / 1) + t)))
              - crfLogAddSumLastCol
                  (fun k t => (fun (r _ : ℕ) => if r = 0 then (1 : ℚ) else 0) k (i * (1 / 1) + t))
                  (fun k t => (fun (_ _ : ℕ) => (0 : ℝ)) k (i * (1 / 1) + t))
                  (fun _ _ => 0) 1 (1 / 1)))
  ∧ ((0 : ℕ) < 1
      ∧ ∀ k, crfAlpha (fun r _ => if r = 0 then (1 : ℚ) else 0)
          (fun _ _ => 0) (fun _ _ => 0) 1 0 k
        = .fin ((fun (_ _ : ℕ) => (0 : ℝ)) k 0 + (fun (_ _ : ℕ) => (0 : ℝ)) k 0)) := by
  have hlab : ∀ col : ℕ, col < 1 →
      (fun _ : ℕ => 0) col < 1
      ∧ (fun (r _ : ℕ) => if r = 0 then (1 : ℚ) else 0) ((fun _ : ℕ => 0) col) col = 1
      ∧ ∀ j, j < 1 → j ≠ (fun _ : ℕ => 0) col →
          (fun (r _ : ℕ) => if r = 0 then (1 : ℚ) else 0) j col = 0 := by
    intro col _
    refine ⟨Nat.zero_lt_one, by norm_num, ?_⟩
    intro j hj hne
    exact absurd (Nat.lt_one_iff.mp hj) hne
  refine ⟨⟨hlab, (C3_crf_output.1 (fun r _ => if r = 0 then (1 : ℚ) else 0)
      (fun _ _ => 0) (fun _ _ => 0) 1 1 1 (fun _ => 0) hlab)⟩,
    Nat.zero_lt_one, ?_⟩
  exact (C3_crf_output.2 (fun r _ => if r = 0 then (1 : ℚ) else 0)
    (fun _ _ => 0) (fun _ _ => 0) 1 0 Nat.zero_lt_one (by norm_num)
    (fun j hj hne => absurd (Nat.lt_one_iff.mp hj) hne)).1

end CNTK
